import Mathlib

/-!
Verification of the CodeGraph language-server core (crate `codegraph-lsp`,
sources under `src/server/src/`).  The Rust code is shallowly embedded:

* `index.rs`   — `IndexRange`, `SymbolIndex` (four secondary indices),
  `add_file`, `remove_file`, `find_at_position`, `clear`, `extract_range`;
* `cache.rs`   — `QueryCache` with its five sub-caches and `invalidate_file`;
* `backend.rs` — `remove_file_from_graph`, `find_node_at_position` (index
  first, property-scan fallback), the `did_open` / `did_change` / `did_save`
  handlers and the `codegraph.reindexWorkspace` command;
* `watcher.rs` — `FileWatcher::handle_file_change`;
* `handlers/ai_context.rs` — `TokenBudget`, `estimate_tokens`,
  `create_related_symbol`, `get_explanation_context` and the token-budget
  core of `handle_get_ai_context`.

Machine integers (`u32`, `i64`, `usize`) are embedded as `Nat`/`Int`; the
`u32` subtractions of `find_at_position` wrap modulo `2 ^ 32` exactly where
the release-mode Rust semantics wraps.  Concurrency wrappers (`Arc`,
`RwLock`, `DashMap`) are sequentialised; `DashMap` instances become
association lists.  The graph store itself (external crate `codegraph`) is
modelled from the specification, §4.1.
-/

set_option autoImplicit false

namespace CodeGraphLSP

/-- NodeId is opaque in the source (a stable integer identifier). -/
abbrev NodeId := Nat

/-! ### Association-list maps (embedding of `DashMap` / `LruCache`) -/

/-- Lookup of the value stored under a key, first binding wins. -/
def alistFind {α β : Type} [DecidableEq α] : List (α × β) → α → Option β
  | [], _ => none
  | (k, v) :: rest, k' => if k = k' then some v else alistFind rest k'

/-- Map insertion replacing any previous binding of the key. -/
def alistInsert {α β : Type} [DecidableEq α] (l : List (α × β)) (k : α) (v : β) :
    List (α × β) :=
  (k, v) :: l.filter (fun p => !(decide (p.1 = k)))

/-- Map removal of every binding of the key. -/
def alistRemove {α β : Type} [DecidableEq α] (l : List (α × β)) (k : α) :
    List (α × β) :=
  l.filter (fun p => !(decide (p.1 = k)))

/-! ### Property bags and the graph store

The graph store lives in the external `codegraph` crate.  Modelled from the
spec: "Node: opaque stable identifier NodeId; a NodeType; a property bag
(string→{string|int})" and §4.1 "query() returning a builder that supports
at least property(key, value) equality filtering and execute() →
list<NodeId>"; `delete_node(id)`, `get_node(id)`. -/

/-- Property values are strings or integers (spec §3 data model). -/
inductive PropValue : Type
  | str (s : String)
  | int (i : Int)
deriving DecidableEq

/-- Property bag of a node. -/
abbrev PropertyMap := List (String × PropValue)

/-- Embedding of `PropertyMap::get_string`. -/
def PropertyMap.get_string (m : PropertyMap) (k : String) : Option String :=
  match alistFind m k with
  | some (.str s) => some s
  | _ => none

/-- Embedding of `PropertyMap::get_int` (an `i64` in the source). -/
def PropertyMap.get_int (m : PropertyMap) (k : String) : Option Int :=
  match alistFind m k with
  | some (.int i) => some i
  | _ => none

/-- Graph node: id, display form of the node type, property bag. -/
structure Node : Type where
  id : NodeId
  node_type : String
  properties : PropertyMap
deriving DecidableEq

/-- Modelled from the spec: the in-memory graph, kept as the list of its
nodes in insertion order (edges are not needed by the claims below). -/
abbrev CodeGraph := List Node

/-- Modelled from the spec: `get_node(id)` returns the node with that id. -/
def CodeGraph.get_node (g : CodeGraph) (i : NodeId) : Option Node :=
  g.find? (fun n => n.id == i)

/-- Modelled from the spec: `query().property(key, value).execute()` with a
string value — equality filtering returning the matching node ids. -/
def CodeGraph.query_property (g : CodeGraph) (k v : String) : List NodeId :=
  (g.filter (fun n => n.properties.get_string k == some v)).map (fun n => n.id)

/-- Modelled from the spec: `delete_node(id)` removes the node. -/
def CodeGraph.delete_node (g : CodeGraph) (i : NodeId) : CodeGraph :=
  g.filter (fun n => n.id != i)

/-- Well-formedness of a graph: node ids are pairwise distinct. -/
abbrev CodeGraph.idsNodup (g : CodeGraph) : Prop :=
  (g.map (fun n => n.id)).Nodup

/-! ### `IndexRange` (src/server/src/index.rs, lines 26-61) -/

/-- Internal range representation for indexing; the four fields are `u32`
in the source, embedded as `Nat`. -/
structure IndexRange : Type where
  start_line : Nat
  start_col : Nat
  end_line : Nat
  end_col : Nat
deriving DecidableEq

/-- Embedding of `IndexRange::contains` (index.rs lines 36-47). -/
def IndexRange.contains (r : IndexRange) (line col : Nat) : Bool :=
  if line < r.start_line ∨ line > r.end_line then false
  else if line = r.start_line ∧ col < r.start_col then false
  else if line = r.end_line ∧ col > r.end_col then false
  else true

/-- LSP position (line and character are `u32` in `tower_lsp`). -/
structure Position : Type where
  line : Nat
  character : Nat
deriving DecidableEq

/-- LSP range (field `end` of the source is spelled `endPos`, `end` being a
Lean keyword). -/
structure Range : Type where
  start : Position
  endPos : Position
deriving DecidableEq

/-- Embedding of `IndexRange::to_lsp_range` (index.rs lines 50-61);
`saturating_sub(1)` on `u32` is truncated subtraction on `Nat`. -/
def IndexRange.to_lsp_range (r : IndexRange) : Range :=
  { start := ⟨r.start_line - 1, r.start_col⟩
    endPos := ⟨r.end_line - 1, r.end_col⟩ }

/-- Modelled from the spec: the inverse editor-boundary conversion, "The
editor protocol's 0-indexed line coordinates are translated at the boundary
(subtract 1 on ingress, add 1 on egress)" — add 1 to the lines, keep the
columns (backend.rs line 81 applies exactly this on ingress). -/
def range_from_lsp (lr : Range) : IndexRange :=
  ⟨lr.start.line + 1, lr.start.character, lr.endPos.line + 1, lr.endPos.character⟩

/-- Wrapping `u32` subtraction: release-mode semantics of `a - b` on `u32`.
For `a, b < 2 ^ 32` this is the value of the wrapped difference. -/
def wrapSub (a b : Nat) : Nat :=
  if b ≤ a then a - b else a + 2 ^ 32 - b

/-- Size measure computed by `find_at_position` (index.rs lines 160-162):
`((end_line - start_line) as usize) * 10000 + (end_col - start_col) as
usize`, with both subtractions performed on `u32` (wrapping). -/
def IndexRange.size (r : IndexRange) : Nat :=
  wrapSub r.end_line r.start_line * 10000 + wrapSub r.end_col r.start_col

/-- Size measure as written in the spec, read over the integers:
`(end_line − start_line) × 10000 + (end_col − start_col)`. -/
def IndexRange.specSize (r : IndexRange) : Int :=
  ((r.end_line : Int) - r.start_line) * 10000 + ((r.end_col : Int) - r.start_col)

/-- Value of an `i64` reinterpreted as `u32` (`as u32` casts in the source):
the low 32 bits. -/
def toU32 (i : Int) : Nat :=
  (i % (2 ^ 32 : Int)).toNat

/-- Embedding of `extract_range` (index.rs lines 254-261). -/
def extract_range (properties : PropertyMap) : Option IndexRange := do
  let sl ← properties.get_int "start_line"
  let sc ← properties.get_int "start_col"
  let el ← properties.get_int "end_line"
  let ec ← properties.get_int "end_col"
  pure ⟨toU32 sl, toU32 sc, toU32 el, toU32 ec⟩

/-! ### `SymbolIndex` (src/server/src/index.rs) -/

/-- The four secondary indices; `DashMap`s become association lists and
`PathBuf` keys become strings. -/
structure SymbolIndex : Type where
  by_name : List (String × List NodeId)
  by_file : List (String × List NodeId)
  by_type : List (String × List NodeId)
  by_position : List (String × List (IndexRange × NodeId))
deriving DecidableEq

/-- Embedding of `SymbolIndex::new`. -/
def SymbolIndex.new : SymbolIndex :=
  ⟨[], [], [], []⟩

/-- Embedding of `entry(k).or_default().push(v)` on a `DashMap<_, Vec<_>>`. -/
def alistPush (l : List (String × List NodeId)) (k : String) (v : NodeId) :
    List (String × List NodeId) :=
  alistInsert l k ((alistFind l k).getD [] ++ [v])

/-- Accumulator of the `add_file` loop: the two directly-mutated indices
plus the locally collected `file_nodes` and `positions`. -/
structure AddFileAcc : Type where
  by_name : List (String × List NodeId)
  by_type : List (String × List NodeId)
  file_nodes : List NodeId
  positions : List (IndexRange × NodeId)

/-- One iteration of the `add_file` loop (index.rs lines 89-110). -/
def addFileStep (graph : CodeGraph) (acc : AddFileAcc) (node_id : NodeId) :
    AddFileAcc :=
  match graph.get_node node_id with
  | none => acc
  | some node =>
    { by_name :=
        match node.properties.get_string "name" with
        | some name => alistPush acc.by_name name node_id
        | none => acc.by_name
      by_type := alistPush acc.by_type node.node_type node_id
      file_nodes := acc.file_nodes ++ [node_id]
      positions :=
        match extract_range node.properties with
        | some range => acc.positions ++ [(range, node_id)]
        | none => acc.positions }

/-- Strict lexicographic order on `(start_line, start_col)` used to sort
the position index. -/
def posLt (a b : IndexRange × NodeId) : Prop :=
  a.1.start_line < b.1.start_line ∨
    (a.1.start_line = b.1.start_line ∧ a.1.start_col < b.1.start_col)

instance : DecidableRel posLt := fun a b => by
  unfold posLt; infer_instance

/-- Stable insertion into a sorted list: the new element goes after every
element it does not strictly precede. -/
def insertPos (x : IndexRange × NodeId) : List (IndexRange × NodeId) →
    List (IndexRange × NodeId)
  | [] => [x]
  | y :: rest => if posLt x y then x :: y :: rest else y :: insertPos x rest

/-- Stable sort by `(start_line, start_col)` (index.rs lines 116-120;
`Vec::sort_by` is stable). -/
def sortPositions (l : List (IndexRange × NodeId)) : List (IndexRange × NodeId) :=
  l.foldl (fun acc x => insertPos x acc) []

/-- Embedding of `SymbolIndex::add_file` (index.rs lines 76-122).  The
iterated ids are `functions`, then `classes`, then `traits` — chained
without deduplication. -/
def SymbolIndex.add_file (idx : SymbolIndex) (path : String)
    (file_info_functions file_info_classes file_info_traits : List NodeId)
    (graph : CodeGraph) : SymbolIndex :=
  let all_node_ids := file_info_functions ++ file_info_classes ++ file_info_traits
  let acc := all_node_ids.foldl (addFileStep graph)
    ⟨idx.by_name, idx.by_type, [], []⟩
  { by_name := acc.by_name
    by_type := acc.by_type
    by_file := alistInsert idx.by_file path acc.file_nodes
    by_position := alistInsert idx.by_position path (sortPositions acc.positions) }

/-- One step of the `remove_file` purge: drop `node_id` from every bucket
and drop buckets that become empty (index.rs lines 131-141). -/
def pruneId (m : List (String × List NodeId)) (node_id : NodeId) :
    List (String × List NodeId) :=
  (m.map (fun p => (p.1, p.2.filter (fun i => i != node_id)))).filter
    (fun p => !p.2.isEmpty)

/-- Embedding of `SymbolIndex::remove_file` (index.rs lines 125-147). -/
def SymbolIndex.remove_file (idx : SymbolIndex) (path : String) : SymbolIndex :=
  let pruned :=
    match alistFind idx.by_file path with
    | some nodes => (nodes.foldl pruneId idx.by_name, nodes.foldl pruneId idx.by_type)
    | none => (idx.by_name, idx.by_type)
  { by_name := pruned.1
    by_type := pruned.2
    by_file := alistRemove idx.by_file path
    by_position := alistRemove idx.by_position path }

/-- Loop of `find_at_position` (index.rs lines 156-176): scan the entries,
keeping the best `(size, node_id)` seen so far; a later entry replaces the
best one only when strictly smaller. -/
def findLoop (line col : Nat) : List (IndexRange × NodeId) →
    Option (Nat × NodeId) → Option (Nat × NodeId)
  | [], best => best
  | (r, i) :: rest, best =>
    if r.contains line col then
      let size := r.size
      match best with
      | some (bs, bi) =>
        if size < bs then findLoop line col rest (some (size, i))
        else findLoop line col rest (some (bs, bi))
      | none => findLoop line col rest (some (size, i))
    else findLoop line col rest best

/-- Embedding of `SymbolIndex::find_at_position` (index.rs lines 151-177). -/
def SymbolIndex.find_at_position (idx : SymbolIndex) (path : String)
    (line col : Nat) : Option NodeId :=
  match alistFind idx.by_position path with
  | none => none
  | some positions => (findLoop line col positions none).map (fun p => p.2)

/-- Embedding of `SymbolIndex::clear` (index.rs lines 223-228). -/
def SymbolIndex.clear (_idx : SymbolIndex) : SymbolIndex :=
  ⟨[], [], [], []⟩

/-! ### `QueryCache` (src/server/src/cache.rs) -/

/-- LSP location: uri plus range. -/
structure Location : Type where
  uri : String
  range : Range
deriving DecidableEq

/-- Cached call hierarchy data (cache.rs lines 37-40). -/
structure CallHierarchyCache : Type where
  incoming : List (NodeId × List Range)
  outgoing : List (NodeId × List Range)
deriving DecidableEq

/-- Cached dependency graph data (cache.rs lines 44-47). -/
structure DependencyGraphCache : Type where
  nodes : List NodeId
  edges : List (NodeId × NodeId × String)
deriving DecidableEq

/-- Cached AI context data (cache.rs lines 51-54); the `f64` relevance
score carried beside each related symbol is dropped from the embedding
(floating point, never consulted by the properties below). -/
structure AIContextCache : Type where
  primary_code : String
  related_symbols : List (NodeId × String)
deriving DecidableEq

/-- The layered query cache; the two `DashMap`s and the three `LruCache`s
all become association lists (LRU eviction plays no role in the claims). -/
structure QueryCache : Type where
  definitions : List ((String × Nat × Nat) × NodeId)
  references : List (NodeId × List Location)
  call_hierarchies : List (NodeId × CallHierarchyCache)
  dependency_graphs : List ((String × Nat) × DependencyGraphCache)
  ai_contexts : List ((NodeId × String) × AIContextCache)
deriving DecidableEq

/-- Embedding of `QueryCache::invalidate_file` (cache.rs lines 167-186):
retain non-matching definition keys, clear references, call hierarchies and
dependency graphs; the `ai_contexts` sub-cache is not touched. -/
def QueryCache.invalidate_file (c : QueryCache) (path : String) : QueryCache :=
  { definitions := c.definitions.filter (fun e => !(decide (e.1.1 = path)))
    references := []
    call_hierarchies := []
    dependency_graphs := []
    ai_contexts := c.ai_contexts }

/-- Embedding of `QueryCache::invalidate_all` (cache.rs lines 189-204). -/
def QueryCache.invalidate_all (_c : QueryCache) : QueryCache :=
  ⟨[], [], [], [], []⟩

/-! ### Backend state and editor-event handlers (src/server/src/backend.rs)

Parsing is performed by external language frontends
(`parse_source(text, path, graph) → FileInfo`, which inserts the file's
nodes into the graph).  A successful parse is therefore passed to each
handler embedding as data: the list `new_nodes` of nodes the frontend
inserts, and the id groups of the returned `FileInfo`. -/

/-- Per-file parse summary (external `codegraph_parser_api::FileInfo`),
restricted to the id groups the server consumes. -/
structure FileInfo : Type where
  functions : List NodeId
  classes : List NodeId
  traits : List NodeId
  imports : List NodeId
deriving DecidableEq

/-- State owned by `CodeGraphBackend` (backend.rs lines 20-38): graph,
file cache (keyed by URI), query cache, symbol index. -/
structure ServerState : Type where
  graph : CodeGraph
  file_cache : List (String × FileInfo)
  query_cache : QueryCache
  symbol_index : SymbolIndex
deriving DecidableEq

/-- Purge loop shared by backend.rs lines 61-65 and watcher.rs lines
150-155: query the ids with the matching `path` property, then delete each
returned node. -/
def removeFileNodes (graph : CodeGraph) (path : String) : CodeGraph :=
  (graph.query_property "path" path).foldl CodeGraph.delete_node graph

/-- Embedding of `CodeGraphBackend::remove_file_from_graph` (backend.rs
lines 56-70): purge the graph, invalidate the query cache for the path,
remove the file from the symbol index. -/
def ServerState.remove_file_from_graph (st : ServerState) (path : String) :
    ServerState :=
  { st with
    graph := removeFileNodes st.graph path
    query_cache := st.query_cache.invalidate_file path
    symbol_index := st.symbol_index.remove_file path }

/-- Embedding of `did_open` (backend.rs lines 325-367) on a parseable file
whose parse succeeds: the frontend inserts `new_nodes` into the graph, then
the symbol index and the file cache are updated.  No purge is performed. -/
def ServerState.did_open (st : ServerState) (uri path : String)
    (new_nodes : List Node) (fi : FileInfo) : ServerState :=
  let graph := st.graph ++ new_nodes
  { st with
    graph := graph
    symbol_index := st.symbol_index.add_file path fi.functions fi.classes fi.traits graph
    file_cache := alistInsert st.file_cache uri fi }

/-- Embedding of `did_change` (backend.rs lines 369-391) on a parseable
file whose parse succeeds: `remove_file_from_graph`, then re-parse and
re-index. -/
def ServerState.did_change (st : ServerState) (uri path : String)
    (new_nodes : List Node) (fi : FileInfo) : ServerState :=
  let st1 := st.remove_file_from_graph path
  let graph := st1.graph ++ new_nodes
  { st1 with
    graph := graph
    symbol_index := st1.symbol_index.add_file path fi.functions fi.classes fi.traits graph
    file_cache := alistInsert st1.file_cache uri fi }

/-- Embedding of `did_save` (backend.rs lines 393-412), identical in shape
to `did_change`. -/
def ServerState.did_save (st : ServerState) (uri path : String)
    (new_nodes : List Node) (fi : FileInfo) : ServerState :=
  let st1 := st.remove_file_from_graph path
  let graph := st1.graph ++ new_nodes
  { st1 with
    graph := graph
    symbol_index := st1.symbol_index.add_file path fi.functions fi.classes fi.traits graph
    file_cache := alistInsert st1.file_cache uri fi }

/-- Embedding of `did_close` (backend.rs lines 414-417). -/
def ServerState.did_close (st : ServerState) (uri : String) : ServerState :=
  { st with file_cache := alistRemove st.file_cache uri }

/-- Embedding of the `codegraph.reindexWorkspace` command arm (backend.rs
lines 770-784): replace the graph by a fresh empty one, clear the symbol
index, clear the file cache. -/
def ServerState.reindex_workspace (st : ServerState) : ServerState :=
  { st with
    graph := []
    symbol_index := st.symbol_index.clear
    file_cache := [] }

/-- Embedding of `FileWatcher::handle_file_change` (watcher.rs lines
106-130) for a parseable path that reads successfully: under the exclusive
graph lock, `remove_file_nodes` then `parse_source` (which inserts
`new_nodes`).  `FileWatcher` is created with only the graph, the parser
registry and the client (watcher.rs lines 17-48), so no other component of
the server state is touched. -/
def ServerState.handle_file_change (st : ServerState) (path : String)
    (new_nodes : List Node) : ServerState :=
  { st with graph := removeFileNodes st.graph path ++ new_nodes }

/-! ### Position resolution fallback (backend.rs lines 74-117) -/

/-- Largest `i64`, the default of a missing `end_col` property in the
fallback scan (backend.rs line 102). -/
def i64Max : Int := 2 ^ 63 - 1

/-- Containment test of the fallback property scan (backend.rs lines
99-112), on `i64` coordinates with the source's defaults for missing
properties. -/
def node_contains (node : Node) (line col : Int) : Bool :=
  let start_line := (node.properties.get_int "start_line").getD 0
  let end_line := (node.properties.get_int "end_line").getD 0
  let start_col := (node.properties.get_int "start_col").getD 0
  let end_col := (node.properties.get_int "end_col").getD i64Max
  if line ≥ start_line ∧ line ≤ end_line then
    if line = start_line ∧ col < start_col then false
    else if line = end_line ∧ col > end_col then false
    else true
  else false

/-- Loop of the fallback scan: first node (in query order) whose range
contains the position wins; ids missing from the graph are skipped. -/
def fallbackLoop (graph : CodeGraph) (line col : Int) : List NodeId → Option NodeId
  | [] => none
  | node_id :: rest =>
    match graph.get_node node_id with
    | some node =>
      if node_contains node line col then some node_id
      else fallbackLoop graph line col rest
    | none => fallbackLoop graph line col rest

/-- Embedding of `CodeGraphBackend::find_node_at_position` (backend.rs
lines 74-117): convert the 0-indexed editor position to 1-indexed, consult
the symbol index (with `as u32` casts), and on a miss fall back to the
property scan. -/
def ServerState.find_node_at_position (st : ServerState) (path : String)
    (position : Position) : Option NodeId :=
  let line : Int := (position.line : Int) + 1
  let col : Int := (position.character : Int)
  match st.symbol_index.find_at_position path (toU32 line) (toU32 col) with
  | some node_id => some node_id
  | none => fallbackLoop st.graph line col (st.graph.query_property "path" path)

/-! ### AI context token accounting (src/server/src/handlers/ai_context.rs) -/

/-- Embedding of `TokenBudget` (ai_context.rs lines 98-101). -/
structure TokenBudget : Type where
  total : Nat
  used : Nat
deriving DecidableEq

/-- Embedding of `TokenBudget::new`. -/
def TokenBudget.new (total : Nat) : TokenBudget :=
  ⟨total, 0⟩

/-- Embedding of `TokenBudget::consume` (ai_context.rs lines 108-115):
consume only when the budget suffices, returning whether it did. -/
def TokenBudget.consume (b : TokenBudget) (tokens : Nat) : Bool × TokenBudget :=
  if b.used + tokens ≤ b.total then (true, ⟨b.total, b.used + tokens⟩)
  else (false, b)

/-- Embedding of `TokenBudget::has_budget`. -/
def TokenBudget.has_budget (b : TokenBudget) : Bool :=
  b.used < b.total

/-- Embedding of `estimate_tokens` (ai_context.rs lines 127-129): integer
division of the byte length by 4. -/
def estimate_tokens (code : String) : Nat :=
  code.length / 4

/-- Edge types of the graph (spec §3; external `codegraph` crate). -/
inductive EdgeType : Type
  | Calls
  | References
  | Imports
  | Extends
  | Contains
  | Implements
deriving DecidableEq, BEq

/-- A related symbol of the AI context response, restricted to the fields
the claims consult (`location` and the `f64` `relevance_score` dropped). -/
structure RelatedSymbol : Type where
  name : String
  relationship : String
  code : String
deriving DecidableEq

/-- Embedding of `create_related_symbol` (ai_context.rs lines 435-461).
`get_node_source_code` (a node property or a file slice from disk) and the
fallibility of `node_to_location_info` are abstracted as the oracles
`source_code` and `loc_ok`; tokens are consumed before the location lookup,
so a location failure does not refund them. -/
def create_related_symbol (source_code : NodeId → Option String)
    (loc_ok : NodeId → Bool) (node_id : NodeId) (node : Node)
    (relationship : String) (budget : TokenBudget) :
    Option RelatedSymbol × TokenBudget :=
  match source_code node_id with
  | none => (none, budget)
  | some code =>
    let tokens := estimate_tokens code
    let res := budget.consume tokens
    if !res.1 then (none, res.2)
    else if !(loc_ok node_id) then (none, res.2)
    else
      (some ⟨(node.properties.get_string "name").getD "", relationship, code⟩,
       res.2)

/-- One priority phase of `get_explanation_context`: iterate the candidate
node ids, stopping when the budget is exhausted, skipping ids missing from
the graph, collecting the successfully created related symbols. -/
def explanationPhase (graph : CodeGraph) (source_code : NodeId → Option String)
    (loc_ok : NodeId → Bool) (relationship : String) :
    List NodeId → TokenBudget → List RelatedSymbol × TokenBudget
  | [], budget => ([], budget)
  | node_id :: rest, budget =>
    if !budget.has_budget then ([], budget)
    else
      match graph.get_node node_id with
      | none => explanationPhase graph source_code loc_ok relationship rest budget
      | some node =>
        match create_related_symbol source_code loc_ok node_id node relationship budget with
        | (some s, budget') =>
          let res := explanationPhase graph source_code loc_ok relationship rest budget'
          (s :: res.1, res.2)
        | (none, budget') =>
          explanationPhase graph source_code loc_ok relationship rest budget'

/-- Embedding of `get_explanation_context` (ai_context.rs lines 236-286):
up to 5 outgoing neighbors (`uses`), up to 3 incoming `Calls`
(`called_by`), then every incoming `Extends` (`inherits`).  Edges are
`(source, target, edge_type)` tuples as returned by
`get_connected_edges`. -/
def get_explanation_context (graph : CodeGraph)
    (source_code : NodeId → Option String) (loc_ok : NodeId → Bool)
    (outgoing incoming : List (NodeId × NodeId × EdgeType))
    (budget : TokenBudget) : List RelatedSymbol × TokenBudget :=
  let r1 := explanationPhase graph source_code loc_ok "uses"
    ((outgoing.take 5).map (fun e => e.2.1)) budget
  let r2 := explanationPhase graph source_code loc_ok "called_by"
    (((incoming.filter (fun e => e.2.2 == EdgeType.Calls)).take 3).map (fun e => e.1))
    r1.2
  let r3 := explanationPhase graph source_code loc_ok "inherits"
    ((incoming.filter (fun e => e.2.2 == EdgeType.Extends)).map (fun e => e.1))
    r2.2
  (r1.1 ++ r2.1 ++ r3.1, r3.2)

/-- Response metadata (ai_context.rs lines 78-81; `query_time` dropped as
wall-clock real time). -/
structure ContextMetadata : Type where
  total_tokens : Nat
deriving DecidableEq

/-- AI context response, restricted to the fields the claims consult. -/
structure AIContextResponse : Type where
  primary_code : String
  related_symbols : List RelatedSymbol
  metadata : ContextMetadata
deriving DecidableEq

/-- Token-budget core of `handle_get_ai_context` (ai_context.rs lines
136-218) for `context_type = "explain"`: seed the budget with
`max_tokens`, consume the primary code estimate discarding the result,
assemble the explanation context, and report `budget.used` as
`metadata.total_tokens`.  Request plumbing (URI parsing, node lookup,
primary-context assembly) is upstream of the accounting and is summarised
by the `primary_code` argument. -/
def handle_get_ai_context_explain (graph : CodeGraph)
    (source_code : NodeId → Option String) (loc_ok : NodeId → Bool)
    (outgoing incoming : List (NodeId × NodeId × EdgeType))
    (primary_code : String) (max_tokens : Nat) : AIContextResponse :=
  let budget := TokenBudget.new max_tokens
  let budget1 := (budget.consume (estimate_tokens primary_code)).2
  let res := get_explanation_context graph source_code loc_ok outgoing incoming budget1
  { primary_code := primary_code
    related_symbols := res.1
    metadata := ⟨res.2.used⟩ }

/-! ### Concrete states used by the counterexamples and witnesses -/

/-- Position index holding two multi-line ranges over the same lines; the
first has `end_col < start_col` (a perfectly ordinary shape: a symbol that
starts at column 10 and ends at column 0 of a later line). -/
def exPositions : List (IndexRange × NodeId) :=
  [(⟨1, 10, 3, 0⟩, 100), (⟨1, 0, 3, 5⟩, 200)]

/-- Symbol index holding `exPositions` for file "a.rs". -/
def exIndex : SymbolIndex :=
  ⟨[], [], [], [("a.rs", exPositions)]⟩

/-- A freshly parsed function node of file "a.rs". -/
def freshNode : Node :=
  ⟨1, "Function",
    [("name", .str "f"), ("path", .str "a.rs"), ("start_line", .int 1),
     ("start_col", .int 0), ("end_line", .int 2), ("end_col", .int 0)]⟩

/-- A stale node of file "a.rs" left over from an earlier parse. -/
def staleNode : Node :=
  ⟨0, "Function", [("name", .str "old"), ("path", .str "a.rs")]⟩

/-- Empty query cache. -/
def emptyCache : QueryCache :=
  ⟨[], [], [], [], []⟩

/-- Server state whose graph already holds `staleNode` for "a.rs". -/
def openBugState : ServerState :=
  ⟨[staleNode], [], emptyCache, SymbolIndex.new⟩

/-- FileInfo of a parse that produced the single function node 1. -/
def exFileInfo : FileInfo :=
  ⟨[1], [], [], []⟩

/-- Server state whose symbol index still indexes node 0 of "a.rs". -/
def watcherState : ServerState :=
  ⟨[staleNode], [], emptyCache,
   ⟨[], [("a.rs", [0])], [], [("a.rs", [(⟨1, 0, 2, 0⟩, 0)])]⟩⟩

/-- Cached AI context answer about node 5. -/
def exAICtx : AIContextCache :=
  ⟨"code", [(5, "x")]⟩

/-- Server state holding node 5 of "a.rs" and an AI-context cache entry
keyed by node 5. -/
def aiBugState : ServerState :=
  ⟨[⟨5, "Function", [("path", .str "a.rs")]⟩], [],
   ⟨[], [], [], [], [((5, "explain"), exAICtx)]⟩, SymbolIndex.new⟩

/-- Class node spanning lines 1-20 of "a.rs". -/
def outerNode : Node :=
  ⟨10, "Class",
    [("path", .str "a.rs"), ("start_line", .int 1), ("start_col", .int 0),
     ("end_line", .int 20), ("end_col", .int 0)]⟩

/-- Method node spanning lines 10-12 of "a.rs", inside `outerNode`. -/
def innerNode : Node :=
  ⟨11, "Function",
    [("path", .str "a.rs"), ("start_line", .int 10), ("start_col", .int 0),
     ("end_line", .int 12), ("end_col", .int 0)]⟩

/-- Server state with the outer node first in scan order and an empty
symbol index (so position lookups take the fallback scan). -/
def fallbackState : ServerState :=
  ⟨[outerNode, innerNode], [], emptyCache, SymbolIndex.new⟩

/-- Spec-side size of a node's range as seen by the fallback scan, over
the `i64` coordinates and with the scan's defaults for missing
properties. -/
def node_spec_size (n : Node) : Int :=
  ((n.properties.get_int "end_line").getD 0 -
      (n.properties.get_int "start_line").getD 0) * 10000 +
    ((n.properties.get_int "end_col").getD i64Max -
      (n.properties.get_int "start_col").getD 0)

/-- A related symbol whose source is 803 characters long: its token
estimate is `803 / 4 = 200`. -/
def bigCode : String :=
  String.mk (List.replicate 803 'a')

/-- Graph holding the single function node 7 named "g". -/
def exAIGraph : CodeGraph :=
  [⟨7, "Function", [("name", .str "g")]⟩]

/-- Source-code oracle: node 7 resolves to `bigCode`. -/
def exAISource : NodeId → Option String :=
  fun i => if i == 7 then some bigCode else none

/-- Response of an explain request with `max_tokens = 200` whose node has
one outgoing edge to node 7 and an empty primary code. -/
def exAIResponse : AIContextResponse :=
  handle_get_ai_context_explain exAIGraph exAISource (fun _ => true)
    [(0, 7, EdgeType.Calls)] [] "" 200

/-! ### C7 — coordinate round-trip -/

/-- C7 counterexample: the claim asserts the round-trip for all `u32`
field values including lines equal to 0, but `to_lsp_range` saturates
`0 - 1` to `0`, and adding 1 back yields line 1, not 0. -/
theorem C7_counterexample :
    range_from_lsp (IndexRange.to_lsp_range ⟨0, 3, 0, 7⟩) ≠ ⟨0, 3, 0, 7⟩ := by
  decide

/-- C7 (amended): for every stored `IndexRange` whose `start_line` and
`end_line` are at least 1 (the canonical 1-indexed line convention),
converting to editor coordinates via `to_lsp_range` and back (add 1 to the
lines) yields the original range. -/
theorem C7_roundtrip (r : IndexRange) (h1 : 1 ≤ r.start_line)
    (h2 : 1 ≤ r.end_line) :
    range_from_lsp r.to_lsp_range = r := by
  cases r with
  | mk sl sc el ec =>
    simp only [IndexRange.to_lsp_range, range_from_lsp, IndexRange.mk.injEq] at *
    refine ⟨by omega, trivial, by omega, trivial⟩

/-- Witness for C7_roundtrip at the range (10,5)-(15,10). -/
theorem C7_roundtrip_witness :
    1 ≤ (⟨10, 5, 15, 10⟩ : IndexRange).start_line ∧
    1 ≤ (⟨10, 5, 15, 10⟩ : IndexRange).end_line ∧
    range_from_lsp (IndexRange.to_lsp_range ⟨10, 5, 15, 10⟩) = ⟨10, 5, 15, 10⟩ :=
  ⟨by decide, by decide, C7_roundtrip ⟨10, 5, 15, 10⟩ (by decide) (by decide)⟩

/-! ### C9 — reindexWorkspace resets everything it claims to reset -/

/-- C9: after the `codegraph.reindexWorkspace` command, the four
symbol-index maps are empty, the file cache is empty, and the graph
contains no nodes. -/
theorem C9_reindex_workspace (st : ServerState) :
    (st.reindex_workspace).symbol_index.by_name = [] ∧
    (st.reindex_workspace).symbol_index.by_file = [] ∧
    (st.reindex_workspace).symbol_index.by_type = [] ∧
    (st.reindex_workspace).symbol_index.by_position = [] ∧
    (st.reindex_workspace).file_cache = [] ∧
    (st.reindex_workspace).graph = [] := by
  simp [ServerState.reindex_workspace, SymbolIndex.clear]

/-! ### C10 — the size computation of find_at_position -/

/-- C10 counterexample: the range (1,10)-(3,0) contains position (2,0) and
has `end_col < start_col`, so `end_col - start_col` underflows on `u32`
(panic in debug builds); under release semantics it wraps, making the
computed size `2·10000 + (2^32 − 10)`. -/
theorem C10_counterexample :
    IndexRange.contains ⟨1, 10, 3, 0⟩ 2 0 = true ∧
    (⟨1, 10, 3, 0⟩ : IndexRange).end_col < (⟨1, 10, 3, 0⟩ : IndexRange).start_col ∧
    IndexRange.size ⟨1, 10, 3, 0⟩ = 2 * 10000 + (2 ^ 32 - 10) := by
  decide

/-- C10 (amended): for a containing range the line subtraction never
underflows — containment forces `start_line ≤ end_line`, so the wrapped
difference agrees with the exact one; the column subtraction, by contrast,
can underflow (see the counterexample). -/
theorem C10_line_subtraction_safe (r : IndexRange) (line col : Nat)
    (h : r.contains line col = true) :
    r.start_line ≤ r.end_line ∧
    wrapSub r.end_line r.start_line = r.end_line - r.start_line := by
  have h1 : ¬(line < r.start_line ∨ line > r.end_line) := by
    intro hc
    simp only [IndexRange.contains, if_pos hc] at h
    exact Bool.false_ne_true h
  push_neg at h1
  refine ⟨by omega, ?_⟩
  unfold wrapSub
  rw [if_pos (by omega)]

/-- Witness for C10_line_subtraction_safe at the range (10,5)-(15,10)
containing position (12,0). -/
theorem C10_line_subtraction_safe_witness :
    IndexRange.contains ⟨10, 5, 15, 10⟩ 12 0 = true ∧
    ((⟨10, 5, 15, 10⟩ : IndexRange).start_line ≤ (⟨10, 5, 15, 10⟩ : IndexRange).end_line ∧
      wrapSub 15 10 = 15 - 10) :=
  ⟨by decide, C10_line_subtraction_safe ⟨10, 5, 15, 10⟩ 12 0 (by decide)⟩

/-! ### C4 — stale AI-context cache entries survive invalidation -/

/-- C4: `invalidate_file` leaves the `ai_contexts` sub-cache untouched for
every cache state, and concretely: after `remove_file_from_graph "a.rs"`
on a state whose graph holds node 5 of that file and whose AI-context
cache holds an answer keyed by node 5, the node is gone from the graph
while the cached answer keyed by the deleted NodeId is still present —
invariant I5 is violated. -/
theorem C4_ai_context_survives_invalidation :
    (∀ (c : QueryCache) (p : String), (c.invalidate_file p).ai_contexts = c.ai_contexts) ∧
    ((aiBugState.remove_file_from_graph "a.rs").graph.get_node 5 = none ∧
      alistFind (aiBugState.remove_file_from_graph "a.rs").query_cache.ai_contexts
        (5, "explain") = some exAICtx) :=
  ⟨fun _ _ => rfl, by decide⟩

/-! ### C6 — add_file does not deduplicate node ids -/

/-- C6 counterexample: node 1 listed in both `functions` and `classes` of
the `FileInfo` produces two entries in `by_file` and two in the node's
`by_name` bucket — the ids are not deduplicated. -/
theorem C6_counterexample :
    alistFind ((SymbolIndex.new.add_file "a.rs" [1] [1] [] [freshNode])).by_file "a.rs" =
      some [1, 1] ∧
    alistFind ((SymbolIndex.new.add_file "a.rs" [1] [1] [] [freshNode])).by_name "f" =
      some [1, 1] := by
  decide

/-- Lookup after insertion returns the inserted value. -/
theorem alistFind_insert {α β : Type} [DecidableEq α] (l : List (α × β)) (k : α) (v : β) :
    alistFind (alistInsert l k v) k = some v := by
  simp [alistInsert, alistFind]

/-- The `add_file` loop collects `file_nodes` with multiplicity: one entry
per occurrence of an id that resolves in the graph. -/
theorem foldl_addFileStep_file_nodes (g : CodeGraph) :
    ∀ (ids : List NodeId) (acc : AddFileAcc),
      (ids.foldl (addFileStep g) acc).file_nodes =
        acc.file_nodes ++ ids.filter (fun i => (g.get_node i).isSome) := by
  intro ids
  induction ids with
  | nil => intro acc; simp
  | cons i ids ih =>
    intro acc
    simp only [List.foldl_cons, List.filter_cons]
    cases hg : g.get_node i with
    | none =>
      have hstep : addFileStep g acc i = acc := by
        unfold addFileStep; rw [hg]
      rw [hstep, ih]
      simp
    | some node =>
      have hstep : (addFileStep g acc i).file_nodes = acc.file_nodes ++ [i] := by
        unfold addFileStep; rw [hg]
      rw [ih, hstep]
      simp

/-- C6 (amended): `add_file` indexes the ids of
`functions ++ classes ++ traits` with multiplicity — `by_file` receives
exactly one entry per occurrence of an id resolvable in the graph (shown
in general), and the other indices likewise duplicate repeated ids (shown
concretely for `by_name` and `by_type`). -/
theorem C6_add_file_multiplicity :
    (∀ (idx : SymbolIndex) (path : String) (fns cls trs : List NodeId) (g : CodeGraph),
      alistFind (idx.add_file path fns cls trs g).by_file path =
        some ((fns ++ cls ++ trs).filter (fun i => (g.get_node i).isSome))) ∧
    (alistFind ((SymbolIndex.new.add_file "a.rs" [1] [1] [] [freshNode])).by_type
        "Function" = some [1, 1] ∧
      alistFind ((SymbolIndex.new.add_file "a.rs" [1] [1] [] [freshNode])).by_position
        "a.rs" = some [(⟨1, 0, 2, 0⟩, 1), (⟨1, 0, 2, 0⟩, 1)]) := by
  constructor
  · intro idx path fns cls trs g
    unfold SymbolIndex.add_file
    rw [alistFind_insert, foldl_addFileStep_file_nodes]
    simp
  · constructor <;> decide

/-! ### The purge loop: query-then-delete equals a path filter -/

/-- Folding `delete_node` over a list of ids filters out exactly the nodes
whose id occurs in the list. -/
theorem foldl_delete_node :
    ∀ (ids : List NodeId) (g : CodeGraph),
      ids.foldl CodeGraph.delete_node g = g.filter (fun n => !(ids.contains n.id)) := by
  intro ids
  induction ids with
  | nil => intro g; simp
  | cons i ids ih =>
    intro g
    simp only [List.foldl_cons]
    rw [ih]
    unfold CodeGraph.delete_node
    rw [List.filter_filter]
    apply List.filter_congr
    intro n _
    by_cases h1 : n.id = i <;> by_cases h2 : n.id ∈ ids <;>
      simp [h1, h2, List.contains_cons, bne]

/-- With pairwise-distinct ids, a node of the graph has its id in the
result of the path query exactly when its `path` property matches. -/
theorem mem_query_property_iff (g : CodeGraph) (p : String) (n : Node)
    (hd : g.idsNodup) (hn : n ∈ g) :
    n.id ∈ g.query_property "path" p ↔ n.properties.get_string "path" = some p := by
  unfold CodeGraph.query_property
  constructor
  · intro h
    obtain ⟨m, hm, hmid⟩ := List.mem_map.mp h
    obtain ⟨hmg, hmp⟩ := List.mem_filter.mp hm
    have : m = n := List.inj_on_of_nodup_map hd hmg hn hmid
    subst this
    simpa using hmp
  · intro h
    exact List.mem_map.mpr ⟨n, List.mem_filter.mpr ⟨hn, by simp [h]⟩, rfl⟩

/-- The purge loop of `remove_file_from_graph` / `remove_file_nodes`
removes exactly the nodes whose `path` property matches. -/
theorem removeFileNodes_eq_filter (g : CodeGraph) (p : String) (hd : g.idsNodup) :
    removeFileNodes g p =
      g.filter (fun n => !(n.properties.get_string "path" == some p)) := by
  unfold removeFileNodes
  rw [foldl_delete_node]
  apply List.filter_congr
  intro n hn
  have hiff := mem_query_property_iff g p n hd hn
  cases hq : (g.query_property "path" p).contains n.id <;>
    cases hm : n.properties.get_string "path" == some p <;> simp_all

/-- Membership in the purged graph implies the path property differs. -/
theorem mem_removeFileNodes (g : CodeGraph) (p : String) (hd : g.idsNodup)
    (n : Node) (hn : n ∈ removeFileNodes g p) :
    n ∈ g ∧ n.properties.get_string "path" ≠ some p := by
  rw [removeFileNodes_eq_filter g p hd] at hn
  obtain ⟨hg, hp⟩ := List.mem_filter.mp hn
  refine ⟨hg, ?_⟩
  simpa using hp

/-! ### C2 — which editor events purge before inserting -/

/-- C2 counterexample: `did_open` on a state whose graph already holds a
node of the opened file inserts the freshly parsed nodes without purging —
the stale node with the file's path survives. -/
theorem C2_counterexample :
    staleNode ∈ (openBugState.did_open "file:///a.rs" "a.rs" [freshNode] exFileInfo).graph ∧
    staleNode.properties.get_string "path" = some "a.rs" ∧
    staleNode ∉ [freshNode] := by
  decide

/-- C2 (amended): `did_change` and `did_save` purge every graph node whose
`path` property equals the file's path (along with its index and cache
entries, via `remove_file_from_graph`) before inserting the freshly parsed
nodes — any node of the resulting graph with that path is freshly parsed;
`did_open`, by contrast, appends the parsed nodes to the existing graph
without any purge. -/
theorem C2_purge_on_change_and_save_not_open :
    (∀ (st : ServerState) (uri path : String) (new_nodes : List Node) (fi : FileInfo),
      st.graph.idsNodup →
      ∀ n ∈ (st.did_change uri path new_nodes fi).graph,
        n.properties.get_string "path" = some path → n ∈ new_nodes) ∧
    (∀ (st : ServerState) (uri path : String) (new_nodes : List Node) (fi : FileInfo),
      st.graph.idsNodup →
      ∀ n ∈ (st.did_save uri path new_nodes fi).graph,
        n.properties.get_string "path" = some path → n ∈ new_nodes) ∧
    (∀ (st : ServerState) (uri path : String) (new_nodes : List Node) (fi : FileInfo),
      (st.did_open uri path new_nodes fi).graph = st.graph ++ new_nodes) := by
  refine ⟨?_, ?_, fun st uri path new_nodes fi => rfl⟩ <;>
  · intro st uri path new_nodes fi hd n hn hp
    rcases List.mem_append.mp hn with h | h
    · exact absurd (mem_removeFileNodes st.graph path hd n h).2 (by simp [hp])
    · exact h

/-- Witness for the `did_change` conjunct of the amended C2 at a concrete
state holding a stale node of "a.rs". -/
theorem C2_purge_witness :
    openBugState.graph.idsNodup ∧
    freshNode ∈ (openBugState.did_change "file:///a.rs" "a.rs" [freshNode] exFileInfo).graph ∧
    freshNode.properties.get_string "path" = some "a.rs" ∧
    freshNode ∈ [freshNode] :=
  ⟨by decide, by decide, by decide,
    C2_purge_on_change_and_save_not_open.1 openBugState "file:///a.rs" "a.rs"
      [freshNode] exFileInfo (by decide) freshNode (by decide) (by decide)⟩

/-! ### C3 — the watcher purges and re-parses but does not re-index -/

/-- C3 counterexample: handling a modify event leaves the symbol index
bit-for-bit unchanged; concretely the position index of "a.rs" still holds
only the purged node 0, which is no longer in the graph — the index is not
rebuilt for the path. -/
theorem C3_counterexample :
    (watcherState.handle_file_change "a.rs" [freshNode]).symbol_index =
      watcherState.symbol_index ∧
    alistFind (watcherState.handle_file_change "a.rs" [freshNode]).symbol_index.by_position
      "a.rs" = some [(⟨1, 0, 2, 0⟩, 0)] ∧
    (watcherState.handle_file_change "a.rs" [freshNode]).graph.get_node 0 = none := by
  decide

/-- C3 (amended): on a watcher create/modify event of a parseable path the
handler purges the graph nodes whose `path` matches and inserts the
freshly parsed nodes, but it does not touch the symbol index, the query
cache or the file cache — `FileWatcher` is constructed with only the graph
handle, so the symbol index is not rebuilt. -/
theorem C3_watcher_purges_graph_only :
    (∀ (st : ServerState) (path : String) (new_nodes : List Node),
      (st.handle_file_change path new_nodes).symbol_index = st.symbol_index ∧
      (st.handle_file_change path new_nodes).query_cache = st.query_cache ∧
      (st.handle_file_change path new_nodes).file_cache = st.file_cache) ∧
    (∀ (st : ServerState) (path : String) (new_nodes : List Node),
      st.graph.idsNodup →
      ∀ n ∈ (st.handle_file_change path new_nodes).graph,
        n.properties.get_string "path" = some path → n ∈ new_nodes) := by
  refine ⟨fun st path new_nodes => ⟨rfl, rfl, rfl⟩, ?_⟩
  intro st path new_nodes hd n hn hp
  rcases List.mem_append.mp hn with h | h
  · exact absurd (mem_removeFileNodes st.graph path hd n h).2 (by simp [hp])
  · exact h

/-- Witness for the purge conjunct of the amended C3 at the concrete
watcher state. -/
theorem C3_watcher_witness :
    watcherState.graph.idsNodup ∧
    freshNode ∈ (watcherState.handle_file_change "a.rs" [freshNode]).graph ∧
    freshNode ∈ [freshNode] :=
  ⟨by decide, by decide,
    C3_watcher_purges_graph_only.2 watcherState "a.rs" [freshNode] (by decide)
      freshNode (by decide) (by decide)⟩

/-! ### C5 — the fallback property scan -/

/-- With pairwise-distinct ids, `get_node` on the id of a member returns
that member. -/
theorem get_node_of_mem (g : CodeGraph) (n : Node) (hd : g.idsNodup)
    (hn : n ∈ g) :
    g.get_node n.id = some n := by
  unfold CodeGraph.get_node
  have hsome : (g.find? (fun m => m.id == n.id)).isSome := by
    rw [List.find?_isSome]
    exact ⟨n, hn, by simp⟩
  obtain ⟨m, hm⟩ := Option.isSome_iff_exists.mp hsome
  have hmg : m ∈ g := List.mem_of_find?_eq_some hm
  have hmid : m.id = n.id := by simpa using List.find?_some hm
  rw [hm, List.inj_on_of_nodup_map hd hmg hn hmid]

/-- The fallback loop over the ids of a sublist of the graph returns the
id of the first listed node whose range contains the position. -/
theorem fallbackLoop_eq_find? (g : CodeGraph) (line col : Int) (hd : g.idsNodup) :
    ∀ (l : List Node), (∀ n ∈ l, n ∈ g) →
      fallbackLoop g line col (l.map (fun n => n.id)) =
        (l.find? (fun n => node_contains n line col)).map (fun n => n.id) := by
  intro l
  induction l with
  | nil => intro _; rfl
  | cons n rest ih =>
    intro hmem
    have hn : n ∈ g := hmem n (by simp)
    have hrest : ∀ m ∈ rest, m ∈ g := fun m hm => hmem m (by simp [hm])
    cases hc : node_contains n line col with
    | true => simp [fallbackLoop, get_node_of_mem g n hd hn, hc]
    | false => simpa [fallbackLoop, get_node_of_mem g n hd hn, hc] using ih hrest

/-- C5 counterexample: with an empty symbol index the lookup falls back to
the property scan; the scan meets the enclosing class node (id 10) first
and returns it, even though the method node (id 11) also contains the
position and spans a strictly smaller range — the fallback is first-match,
not innermost-match. -/
theorem C5_counterexample :
    fallbackState.find_node_at_position "a.rs" ⟨9, 0⟩ = some 10 ∧
    innerNode ∈ fallbackState.graph ∧
    innerNode.properties.get_string "path" = some "a.rs" ∧
    node_contains innerNode 10 0 = true ∧
    innerNode.id ≠ 10 ∧
    node_spec_size innerNode < node_spec_size outerNode := by
  decide

/-- C5 (amended): when the symbol index misses, `find_node_at_position`
falls back to the property scan over the nodes with the matching `path`,
and the scan returns the id of the first containing node in scan order —
or empty when no node's range contains the position (the `find?`
characterisation covers both). -/
theorem C5_fallback_first_match :
    (∀ (g : CodeGraph) (p : String) (line col : Int), g.idsNodup →
      fallbackLoop g line col (g.query_property "path" p) =
        ((g.filter (fun n => n.properties.get_string "path" == some p)).find?
          (fun n => node_contains n line col)).map (fun n => n.id)) ∧
    (∀ (st : ServerState) (path : String) (position : Position),
      st.symbol_index.find_at_position path (toU32 ((position.line : Int) + 1))
        (toU32 (position.character : Int)) = none →
      st.find_node_at_position path position =
        fallbackLoop st.graph ((position.line : Int) + 1) (position.character : Int)
          (st.graph.query_property "path" path)) := by
  constructor
  · intro g p line col hd
    exact fallbackLoop_eq_find? g line col hd _ (fun n hn => List.mem_of_mem_filter hn)
  · intro st path position hmiss
    simp only [ServerState.find_node_at_position]
    rw [hmiss]

/-- Witness for the amended C5 at the concrete fallback state and
position (9,0): the scan equals the first-match characterisation. -/
theorem C5_fallback_witness :
    fallbackState.graph.idsNodup ∧
    fallbackLoop fallbackState.graph 10 0
        (fallbackState.graph.query_property "path" "a.rs") =
      ((fallbackState.graph.filter
          (fun n => n.properties.get_string "path" == some "a.rs")).find?
        (fun n => node_contains n 10 0)).map (fun n => n.id) :=
  ⟨by decide, C5_fallback_first_match.1 fallbackState.graph "a.rs" 10 0 (by decide)⟩

/-! ### C1 / C10 support: the find_at_position scan loop -/

/-- Once the loop holds a best candidate it never returns `none`. -/
theorem findLoop_some_acc (line col : Nat) :
    ∀ (ps : List (IndexRange × NodeId)) (acc : Nat × NodeId),
      ∃ res, findLoop line col ps (some acc) = some res := by
  intro ps
  induction ps with
  | nil => intro acc; exact ⟨acc, rfl⟩
  | cons e rest ih =>
    intro acc
    obtain ⟨r, i⟩ := e
    obtain ⟨bs, bi⟩ := acc
    cases hc : r.contains line col with
    | false => simpa [findLoop, hc] using ih (bs, bi)
    | true =>
      by_cases hlt : r.size < bs
      · simpa [findLoop, hc, hlt] using ih (r.size, i)
      · simpa [findLoop, hc, hlt] using ih (bs, bi)

/-- If the loop starting from an empty best candidate returns `none`, no
scanned range contains the position. -/
theorem findLoop_none_forall (line col : Nat) :
    ∀ (ps : List (IndexRange × NodeId)),
      findLoop line col ps none = none →
      ∀ e ∈ ps, e.1.contains line col = false := by
  intro ps
  induction ps with
  | nil => intro _ e he; exact absurd he (List.not_mem_nil e)
  | cons e rest ih =>
    obtain ⟨r, i⟩ := e
    intro h f hf
    cases hc : r.contains line col with
    | true =>
      rw [show findLoop line col ((r, i) :: rest) none =
            findLoop line col rest (some (r.size, i)) by simp [findLoop, hc]] at h
      obtain ⟨res, hres⟩ := findLoop_some_acc line col rest (r.size, i)
      rw [hres] at h
      exact absurd h (Option.some_ne_none res)
    | false =>
      rw [show findLoop line col ((r, i) :: rest) none =
            findLoop line col rest none by simp [findLoop, hc]] at h
      rcases List.mem_cons.mp hf with hf | hf
      · rw [hf]; exact hc
      · exact ih h f hf

/-- If no scanned range contains the position the loop returns its
accumulator unchanged. -/
theorem findLoop_skip (line col : Nat) :
    ∀ (ps : List (IndexRange × NodeId)) (best : Option (Nat × NodeId)),
      (∀ e ∈ ps, e.1.contains line col = false) →
      findLoop line col ps best = best := by
  intro ps
  induction ps with
  | nil => intro best _; rfl
  | cons e rest ih =>
    obtain ⟨r, i⟩ := e
    intro best hall
    have hc : r.contains line col = false := hall (r, i) (by simp)
    rw [show findLoop line col ((r, i) :: rest) best =
          findLoop line col rest best by simp [findLoop, hc]]
    exact ih best (fun f hf => hall f (by simp [hf]))

/-- A returned best candidate is either the initial accumulator or comes
from a containing scanned entry whose size it records. -/
theorem findLoop_mem (line col : Nat) :
    ∀ (ps : List (IndexRange × NodeId)) (best : Option (Nat × NodeId)) (s : Nat) (j : NodeId),
      findLoop line col ps best = some (s, j) →
      best = some (s, j) ∨
        ∃ r, (r, j) ∈ ps ∧ r.contains line col = true ∧ r.size = s := by
  intro ps
  induction ps with
  | nil => intro best s j h; exact Or.inl h
  | cons e rest ih =>
    obtain ⟨r, i⟩ := e
    intro best s j h
    cases hc : r.contains line col with
    | false =>
      rw [show findLoop line col ((r, i) :: rest) best =
            findLoop line col rest best by simp [findLoop, hc]] at h
      rcases ih best s j h with h' | ⟨r', hmem, hcon, hsz⟩
      · exact Or.inl h'
      · exact Or.inr ⟨r', by simp [hmem], hcon, hsz⟩
    | true =>
      cases best with
      | none =>
        rw [show findLoop line col ((r, i) :: rest) none =
              findLoop line col rest (some (r.size, i)) by simp [findLoop, hc]] at h
        rcases ih _ s j h with h' | ⟨r', hmem, hcon, hsz⟩
        · have h1 : r.size = s := congrArg Prod.fst (Option.some.inj h')
          have h2 : i = j := congrArg Prod.snd (Option.some.inj h')
          exact Or.inr ⟨r, by simp [h2], hc, h1⟩
        · exact Or.inr ⟨r', by simp [hmem], hcon, hsz⟩
      | some b =>
        obtain ⟨bs, bi⟩ := b
        by_cases hlt : r.size < bs
        · rw [show findLoop line col ((r, i) :: rest) (some (bs, bi)) =
                findLoop line col rest (some (r.size, i)) by simp [findLoop, hc, hlt]] at h
          rcases ih _ s j h with h' | ⟨r', hmem, hcon, hsz⟩
          · have h1 : r.size = s := congrArg Prod.fst (Option.some.inj h')
            have h2 : i = j := congrArg Prod.snd (Option.some.inj h')
            exact Or.inr ⟨r, by simp [h2], hc, h1⟩
          · exact Or.inr ⟨r', by simp [hmem], hcon, hsz⟩
        · rw [show findLoop line col ((r, i) :: rest) (some (bs, bi)) =
                findLoop line col rest (some (bs, bi)) by simp [findLoop, hc, hlt]] at h
          rcases ih _ s j h with h' | ⟨r', hmem, hcon, hsz⟩
          · exact Or.inl h'
          · exact Or.inr ⟨r', by simp [hmem], hcon, hsz⟩

/-- The returned size is a lower bound of the accumulator's size and of
the size of every containing scanned entry. -/
theorem findLoop_min (line col : Nat) :
    ∀ (ps : List (IndexRange × NodeId)) (best : Option (Nat × NodeId)) (s : Nat) (j : NodeId),
      findLoop line col ps best = some (s, j) →
      (∀ bs bi, best = some (bs, bi) → s ≤ bs) ∧
        (∀ e ∈ ps, e.1.contains line col = true → s ≤ e.1.size) := by
  intro ps
  induction ps with
  | nil =>
    intro best s j h
    refine ⟨fun bs bi hb => ?_, fun e he => absurd he (List.not_mem_nil e)⟩
    have h' : best = some (s, j) := h
    have h1 : s = bs := congrArg Prod.fst (Option.some.inj (h'.symm.trans hb))
    omega
  | cons e rest ih =>
    obtain ⟨r, i⟩ := e
    intro best s j h
    cases hc : r.contains line col with
    | false =>
      rw [show findLoop line col ((r, i) :: rest) best =
            findLoop line col rest best by simp [findLoop, hc]] at h
      obtain ⟨hacc, hrest⟩ := ih best s j h
      refine ⟨hacc, fun f hf hcf => ?_⟩
      rcases List.mem_cons.mp hf with hf | hf
      · rw [hf] at hcf; rw [hcf] at hc; exact absurd hc (by simp)
      · exact hrest f hf hcf
    | true =>
      cases best with
      | none =>
        rw [show findLoop line col ((r, i) :: rest) none =
              findLoop line col rest (some (r.size, i)) by simp [findLoop, hc]] at h
        obtain ⟨hacc, hrest⟩ := ih _ s j h
        have hsr : s ≤ r.size := hacc r.size i rfl
        refine ⟨fun bs bi hb => Option.noConfusion hb, fun f hf hcf => ?_⟩
        rcases List.mem_cons.mp hf with hf | hf
        · rw [hf]; exact hsr
        · exact hrest f hf hcf
      | some b =>
        obtain ⟨bs, bi⟩ := b
        by_cases hlt : r.size < bs
        · rw [show findLoop line col ((r, i) :: rest) (some (bs, bi)) =
                findLoop line col rest (some (r.size, i)) by simp [findLoop, hc, hlt]] at h
          obtain ⟨hacc, hrest⟩ := ih _ s j h
          have hsr : s ≤ r.size := hacc r.size i rfl
          refine ⟨fun bs' bi' hb => ?_, fun f hf hcf => ?_⟩
          · have h1 : bs = bs' := congrArg Prod.fst (Option.some.inj hb)
            omega
          · rcases List.mem_cons.mp hf with hf | hf
            · rw [hf]; exact hsr
            · exact hrest f hf hcf
        · rw [show findLoop line col ((r, i) :: rest) (some (bs, bi)) =
                findLoop line col rest (some (bs, bi)) by simp [findLoop, hc, hlt]] at h
          obtain ⟨hacc, hrest⟩ := ih _ s j h
          have hsb : s ≤ bs := hacc bs bi rfl
          refine ⟨fun bs' bi' hb => ?_, fun f hf hcf => ?_⟩
          · have h1 : bs = bs' := congrArg Prod.fst (Option.some.inj hb)
            omega
          · rcases List.mem_cons.mp hf with hf | hf
            · rw [hf]; show s ≤ r.size; omega
            · exact hrest f hf hcf

/-! ### C1 — find_at_position and the smallest containing range -/

/-- C1 counterexample: at position (2,0) of `exIndex` the scan returns
node 200, yet 200's only indexed range is not the smallest containing one
by the claimed formula — the range of node 100 also contains (2,0) and its
`(end_line − start_line) × 10000 + (end_col − start_col)` is smaller
(19990 against 20005).  The `u32` computation wraps 100's column
difference to `2^32 − 10`, so the code discards the truly smallest
range. -/
theorem C1_counterexample :
    exIndex.find_at_position "a.rs" 2 0 = some 200 ∧
    ∀ e ∈ exPositions, e.2 = (200 : NodeId) →
      ∃ f ∈ exPositions, f.1.contains 2 0 = true ∧ f.1.specSize < e.1.specSize := by
  decide

/-- C1 (amended): `find_at_position` returns the id of the smallest range
containing the position — where the size is the `u32` wrapping computation
`((end_line − start_line) mod 2^32) × 10000 + ((end_col − start_col) mod
2^32)`, which coincides with the claimed formula whenever
`end_col ≥ start_col` — a position on a range's exact
`(start_line, start_col)` counting as contained (per
`IndexRange.contains`); when the file is not indexed or no indexed range
contains the position the result is `none`. -/
theorem C1_find_at_position_minimal :
    (∀ (idx : SymbolIndex) (path : String) (line col : Nat),
      alistFind idx.by_position path = none →
      idx.find_at_position path line col = none) ∧
    (∀ (idx : SymbolIndex) (path : String) (line col : Nat)
        (ps : List (IndexRange × NodeId)),
      alistFind idx.by_position path = some ps →
      (idx.find_at_position path line col = none ↔
        ∀ e ∈ ps, e.1.contains line col = false)) ∧
    (∀ (idx : SymbolIndex) (path : String) (line col : Nat)
        (ps : List (IndexRange × NodeId)) (j : NodeId),
      alistFind idx.by_position path = some ps →
      idx.find_at_position path line col = some j →
      ∃ r, (r, j) ∈ ps ∧ r.contains line col = true ∧
        ∀ e ∈ ps, e.1.contains line col = true → r.size ≤ e.1.size) := by
  refine ⟨?_, ?_, ?_⟩
  · intro idx path line col hnone
    unfold SymbolIndex.find_at_position
    rw [hnone]
  · intro idx path line col ps hps
    unfold SymbolIndex.find_at_position
    rw [hps]
    show (findLoop line col ps none).map (fun p => p.2) = none ↔ _
    constructor
    · intro h
      exact findLoop_none_forall line col ps (Option.map_eq_none.mp h)
    · intro hall
      rw [findLoop_skip line col ps none hall]
      rfl
  · intro idx path line col ps j hps h
    unfold SymbolIndex.find_at_position at h
    rw [hps] at h
    have h' : (findLoop line col ps none).map (fun p => p.2) = some j := h
    obtain ⟨⟨s, j₀⟩, hloop, hj⟩ := Option.map_eq_some.mp h'
    have hj' : j₀ = j := hj
    subst hj'
    rcases findLoop_mem line col ps none s j₀ hloop with h'' | ⟨r, hmem, hcon, hsz⟩
    · exact absurd h''.symm (Option.some_ne_none _)
    · refine ⟨r, hmem, hcon, fun e he hce => ?_⟩
      rw [hsz]
      exact (findLoop_min line col ps none s j₀ hloop).2 e he hce

/-- Witness for the minimality conjunct of the amended C1 at the concrete
index: the returned node 200 is backed by a containing range of minimal
wrapped size. -/
theorem C1_find_at_position_witness :
    alistFind exIndex.by_position "a.rs" = some exPositions ∧
    exIndex.find_at_position "a.rs" 2 0 = some 200 ∧
    ∃ r, (r, (200 : NodeId)) ∈ exPositions ∧ r.contains 2 0 = true ∧
      ∀ e ∈ exPositions, e.1.contains 2 0 = true → r.size ≤ e.1.size :=
  ⟨by decide, by decide,
    C1_find_at_position_minimal.2.2 exIndex "a.rs" 2 0 exPositions 200
      (by decide) (by decide)⟩

/-! ### C8 — token-budget accounting of the AI context -/

/-- `consume` preserves the budget total. -/
theorem consume_total (b : TokenBudget) (t : Nat) :
    (b.consume t).2.total = b.total := by
  unfold TokenBudget.consume
  split <;> rfl

/-- `consume` never decreases the used count. -/
theorem consume_used_mono (b : TokenBudget) (t : Nat) :
    b.used ≤ (b.consume t).2.used := by
  unfold TokenBudget.consume
  split <;> simp

/-- `consume` keeps the used count within the total. -/
theorem consume_used_le (b : TokenBudget) (t : Nat) (h : b.used ≤ b.total) :
    (b.consume t).2.used ≤ b.total := by
  unfold TokenBudget.consume
  split
  · simpa using by omega
  · exact h

/-- Budget bookkeeping of `create_related_symbol`: the total is preserved,
the used count grows monotonically and stays within the total, and a
produced symbol has had its code's token estimate charged. -/
theorem create_related_symbol_spec (src : NodeId → Option String)
    (loc : NodeId → Bool) (nid : NodeId) (node : Node) (rel : String)
    (b : TokenBudget) :
    (create_related_symbol src loc nid node rel b).2.total = b.total ∧
    b.used ≤ (create_related_symbol src loc nid node rel b).2.used ∧
    (b.used ≤ b.total → (create_related_symbol src loc nid node rel b).2.used ≤ b.total) ∧
    (∀ s, (create_related_symbol src loc nid node rel b).1 = some s →
      b.used + estimate_tokens s.code ≤ (create_related_symbol src loc nid node rel b).2.used) := by
  cases hsrc : src nid with
  | none =>
    have hred : create_related_symbol src loc nid node rel b = (none, b) := by
      unfold create_related_symbol
      rw [hsrc]
    rw [hred]
    exact ⟨rfl, le_refl _, fun h => h, fun s hs => Option.noConfusion hs⟩
  | some code =>
    by_cases hc : b.used + estimate_tokens code ≤ b.total
    · have hcons : b.consume (estimate_tokens code) =
          (true, ⟨b.total, b.used + estimate_tokens code⟩) := by
        unfold TokenBudget.consume
        rw [if_pos hc]
      cases hloc : loc nid with
      | false =>
        have hred : create_related_symbol src loc nid node rel b =
            (none, ⟨b.total, b.used + estimate_tokens code⟩) := by
          unfold create_related_symbol
          rw [hsrc]
          simp [hcons, hloc]
        rw [hred]
        exact ⟨rfl, by simp, fun _ => hc, fun s hs => Option.noConfusion hs⟩
      | true =>
        have hred : create_related_symbol src loc nid node rel b =
            (some ⟨(node.properties.get_string "name").getD "", rel, code⟩,
              ⟨b.total, b.used + estimate_tokens code⟩) := by
          unfold create_related_symbol
          rw [hsrc]
          simp [hcons, hloc]
        rw [hred]
        refine ⟨rfl, by simp, fun _ => hc, fun s hs => ?_⟩
        have hs' : s = ⟨(node.properties.get_string "name").getD "", rel, code⟩ :=
          (Option.some.inj hs).symm
        rw [hs']
    · have hcons : b.consume (estimate_tokens code) = (false, b) := by
        unfold TokenBudget.consume
        rw [if_neg hc]
      have hred : create_related_symbol src loc nid node rel b = (none, b) := by
        unfold create_related_symbol
        rw [hsrc]
        simp [hcons]
      rw [hred]
      exact ⟨rfl, le_refl _, fun h => h, fun s hs => Option.noConfusion hs⟩

/-- Budget bookkeeping of one phase of the context-selection loop: the
total is preserved, the used count grows and stays within the total, and
the token estimates of all collected symbols fit in the growth of the used
count. -/
theorem explanationPhase_spec (graph : CodeGraph) (src : NodeId → Option String)
    (loc : NodeId → Bool) (rel : String) :
    ∀ (cands : List NodeId) (b : TokenBudget),
      (explanationPhase graph src loc rel cands b).2.total = b.total ∧
      b.used ≤ (explanationPhase graph src loc rel cands b).2.used ∧
      (b.used ≤ b.total → (explanationPhase graph src loc rel cands b).2.used ≤ b.total) ∧
      b.used + (((explanationPhase graph src loc rel cands b).1.map
          (fun s => estimate_tokens s.code)).sum) ≤
        (explanationPhase graph src loc rel cands b).2.used := by
  intro cands
  induction cands with
  | nil => intro b; simp [explanationPhase]
  | cons nid rest ih =>
    intro b
    cases hb : b.has_budget with
    | false => simp [explanationPhase, hb]
    | true =>
      cases hg : graph.get_node nid with
      | none =>
        have hred : explanationPhase graph src loc rel (nid :: rest) b =
            explanationPhase graph src loc rel rest b := by
          simp [explanationPhase, hb, hg]
        rw [hred]
        exact ih b
      | some node =>
        obtain ⟨ht0, hm0, hle0, hchg0⟩ := create_related_symbol_spec src loc nid node rel b
        cases hcr : create_related_symbol src loc nid node rel b with
        | mk o b' =>
          rw [hcr] at ht0 hm0 hle0 hchg0
          have ht' : b'.total = b.total := ht0
          have hm' : b.used ≤ b'.used := hm0
          have hle' : b.used ≤ b.total → b'.used ≤ b.total := hle0
          cases o with
          | none =>
            have hred : explanationPhase graph src loc rel (nid :: rest) b =
                explanationPhase graph src loc rel rest b' := by
              simp [explanationPhase, hb, hg, hcr]
            rw [hred]
            obtain ⟨ht, hm, hle, hsum⟩ := ih b'
            refine ⟨by omega, by omega, fun h => ?_, by omega⟩
            have h1 : b'.used ≤ b'.total := by omega
            have h2 := hle h1
            omega
          | some s =>
            have hfst : (explanationPhase graph src loc rel (nid :: rest) b).1 =
                s :: (explanationPhase graph src loc rel rest b').1 := by
              simp [explanationPhase, hb, hg, hcr]
            have hsnd : (explanationPhase graph src loc rel (nid :: rest) b).2 =
                (explanationPhase graph src loc rel rest b').2 := by
              simp [explanationPhase, hb, hg, hcr]
            rw [hfst, hsnd]
            obtain ⟨ht, hm, hle, hsum⟩ := ih b'
            have hch : b.used + estimate_tokens s.code ≤ b'.used := hchg0 s rfl
            simp only [List.map_cons, List.sum_cons]
            refine ⟨by omega, by omega, fun h => ?_, by omega⟩
            have h1 : b'.used ≤ b'.total := by omega
            have h2 := hle h1
            omega

/-- Budget bookkeeping of `get_explanation_context`, composing the three
phases. -/
theorem get_explanation_context_spec (graph : CodeGraph)
    (src : NodeId → Option String) (loc : NodeId → Bool)
    (outgoing incoming : List (NodeId × NodeId × EdgeType)) (b : TokenBudget) :
    (get_explanation_context graph src loc outgoing incoming b).2.total = b.total ∧
    (b.used ≤ b.total →
      (get_explanation_context graph src loc outgoing incoming b).2.used ≤ b.total) ∧
    b.used + (((get_explanation_context graph src loc outgoing incoming b).1.map
        (fun s => estimate_tokens s.code)).sum) ≤
      (get_explanation_context graph src loc outgoing incoming b).2.used := by
  set c1 := (outgoing.take 5).map (fun e => e.2.1) with hc1
  set c2 := (((incoming.filter (fun e => e.2.2 == EdgeType.Calls)).take 3).map
    (fun e => e.1)) with hc2
  set c3 := ((incoming.filter (fun e => e.2.2 == EdgeType.Extends)).map
    (fun e => e.1)) with hc3
  have hfst : (get_explanation_context graph src loc outgoing incoming b).1 =
      (explanationPhase graph src loc "uses" c1 b).1 ++
        (explanationPhase graph src loc "called_by" c2
          (explanationPhase graph src loc "uses" c1 b).2).1 ++
        (explanationPhase graph src loc "inherits" c3
          (explanationPhase graph src loc "called_by" c2
            (explanationPhase graph src loc "uses" c1 b).2).2).1 := rfl
  have hsnd : (get_explanation_context graph src loc outgoing incoming b).2 =
      (explanationPhase graph src loc "inherits" c3
        (explanationPhase graph src loc "called_by" c2
          (explanationPhase graph src loc "uses" c1 b).2).2).2 := rfl
  rw [hfst, hsnd]
  obtain ⟨ht1, hm1, hle1, hs1⟩ := explanationPhase_spec graph src loc "uses" c1 b
  obtain ⟨ht2, hm2, hle2, hs2⟩ := explanationPhase_spec graph src loc "called_by" c2
    (explanationPhase graph src loc "uses" c1 b).2
  obtain ⟨ht3, hm3, hle3, hs3⟩ := explanationPhase_spec graph src loc "inherits" c3
    (explanationPhase graph src loc "called_by" c2
      (explanationPhase graph src loc "uses" c1 b).2).2
  simp only [List.map_append, List.sum_append]
  refine ⟨by omega, fun h => ?_, by omega⟩
  have h1 : (explanationPhase graph src loc "uses" c1 b).2.used ≤
      (explanationPhase graph src loc "uses" c1 b).2.total := by
    have := hle1 h
    omega
  have h2 : (explanationPhase graph src loc "called_by" c2
      (explanationPhase graph src loc "uses" c1 b).2).2.used ≤
      (explanationPhase graph src loc "called_by" c2
        (explanationPhase graph src loc "uses" c1 b).2).2.total := by
    have := hle2 h1
    omega
  have h3 := hle3 h2
  omega

/-- A code string is at most 3 characters longer than 4 times its token
estimate, summed over a symbol list. -/
theorem sum_code_length_le (l : List RelatedSymbol) :
    (l.map (fun s => s.code.length)).sum ≤
      4 * ((l.map (fun s => estimate_tokens s.code)).sum) + 3 * l.length := by
  induction l with
  | nil => simp
  | cons s rest ih =>
    simp only [List.map_cons, List.sum_cons, List.length_cons]
    have h4 : s.code.length ≤ 4 * estimate_tokens s.code + 3 := by
      unfold estimate_tokens
      omega
    omega

set_option maxRecDepth 16384 in
/-- C8 counterexample: with `max_tokens = 200` a single related symbol
whose source is 803 characters long is accepted — its token estimate is
`803 / 4 = 200` — so `metadata.total_tokens = 200 ≤ 200` holds but the
cumulative code length 803 exceeds `200 × 4 = 800` characters. -/
theorem C8_counterexample :
    exAIResponse.metadata.total_tokens = 200 ∧
    ((exAIResponse.related_symbols.map (fun s => s.code.length)).sum = 803) ∧
    ¬((exAIResponse.related_symbols.map (fun s => s.code.length)).sum ≤ 200 * 4) := by
  refine ⟨by decide, by decide, by decide⟩

/-- C8 (amended): for every explain request, `metadata.total_tokens` is at
most `max_tokens`, and the cumulative length of the related symbols' code
is at most `4 × max_tokens` plus up to 3 characters per related symbol
(the flooring remainder of the `len / 4` token estimate); the stated
`200 × 4` bound can thus be exceeded by at most 3 characters per
symbol. -/
theorem C8_token_budget (graph : CodeGraph) (src : NodeId → Option String)
    (loc : NodeId → Bool) (outgoing incoming : List (NodeId × NodeId × EdgeType))
    (primary_code : String) (max_tokens : Nat) :
    (handle_get_ai_context_explain graph src loc outgoing incoming primary_code
        max_tokens).metadata.total_tokens ≤ max_tokens ∧
    ((handle_get_ai_context_explain graph src loc outgoing incoming primary_code
        max_tokens).related_symbols.map (fun s => s.code.length)).sum ≤
      4 * max_tokens +
        3 * (handle_get_ai_context_explain graph src loc outgoing incoming
          primary_code max_tokens).related_symbols.length := by
  set b1 := ((TokenBudget.new max_tokens).consume (estimate_tokens primary_code)).2
    with hb1
  set r := get_explanation_context graph src loc outgoing incoming b1 with hr
  have hmeta : (handle_get_ai_context_explain graph src loc outgoing incoming
      primary_code max_tokens).metadata.total_tokens = r.2.used := rfl
  have hrel : (handle_get_ai_context_explain graph src loc outgoing incoming
      primary_code max_tokens).related_symbols = r.1 := rfl
  rw [hmeta, hrel]
  have h1t : b1.total = max_tokens := consume_total _ _
  have h1u : b1.used ≤ max_tokens := consume_used_le _ _ (Nat.zero_le _)
  obtain ⟨hgt, hgle, hgsum⟩ := get_explanation_context_spec graph src loc outgoing
    incoming b1
  have hgt' : r.2.total = b1.total := hgt
  have hgle' : b1.used ≤ b1.total → r.2.used ≤ b1.total := hgle
  have hgsum' : b1.used + ((r.1.map (fun s => estimate_tokens s.code)).sum) ≤
      r.2.used := hgsum
  have hb1le : b1.used ≤ b1.total := by omega
  have hused := hgle' hb1le
  have hsum := sum_code_length_le r.1
  exact ⟨by omega, by omega⟩

end CodeGraphLSP
